import Mathlib

/-!
Verification of `cell_counts.py` (FlowJo cell-count calculator).

The Python program is shallowly embedded below.  Python `Decimal`
values are modelled as exact rationals (`ℚ`): the program only parses
decimal strings, divides by 100 and multiplies, all of which are exact
on the values occurring here.  Python runtime failures (uncaught
exceptions and `sys.exit` calls) are modelled with `Except`.  Python
string splitting is embedded as structural functions on `List Char`
(`String.toList`), with the same semantics as `str.split`.
-/

/-- The ways the Python program can abort: `sys.exit` after the
`" | "` header check (the spec's `MalformedPathError`), `Decimal`'s
`InvalidOperation`, and the uncaught `ValueError` / `KeyError` /
`IndexError` / `TypeError` exceptions. -/
inductive PyErr where
  | malformedPath
  | invalidOperation
  | valueError
  | keyError
  | indexError
  | typeError
  deriving DecidableEq

/-- An entry of `calc_list` as built by `find_parent_gate`: the Python
list holds the string `"start"`, the string `"ignore"`, or an `int`
index into the catalog. -/
inductive CalcEntry where
  | start
  | ignore
  | parentIndex (j : Nat)
  deriving DecidableEq

/-! ## String helpers (Python `str.split` and friends) -/

/-- Python `s.split(sep)` for a one-character separator, on the
character list: `"".split`' yields `[""]`, separators at the ends yield
empty segments. -/
def splitChar (sep : Char) : List Char → List (List Char)
  | [] => [[]]
  | c :: rest =>
      match splitChar sep rest with
      | [] => [[]]
      | g :: gs => if c = sep then [] :: g :: gs else (c :: g) :: gs

/-- `"/".join`-style joining of segments with a one-character
separator. -/
def joinSep (sep : Char) : List (List Char) → List Char
  | [] => []
  | [g] => g
  | g :: gs => g ++ sep :: joinSep sep gs

/-- Python `gate.split(" | ")`: split on the three-character separator,
left to right, non-overlapping. -/
def splitPipe : List Char → List (List Char)
  | ' ' :: '|' :: ' ' :: rest => [] :: splitPipe rest
  | c :: rest =>
      match splitPipe rest with
      | [] => [[c]]
      | g :: gs => (c :: g) :: gs
  | [] => [[]]

/-! ## Decimal parsing (`TubeData.convert_to_decimal`) -/

/-- Numeric value of a list of decimal digit characters. -/
def digitsVal (cs : List Char) : Nat :=
  cs.foldl (fun a c => 10 * a + (c.toNat - 48)) 0

/-- Models `decimal.Decimal` on an unsigned numeric character string:
digits with an optional decimal point (exponent forms are not used by
the program's inputs).  `none` models `InvalidOperation`. -/
def parseUnsigned (cs : List Char) : Option ℚ :=
  match splitChar '.' cs with
  | [ip] =>
      if ip ≠ [] ∧ ip.all Char.isDigit then some (digitsVal ip : ℚ) else none
  | [ip, fp] =>
      if ip ++ fp ≠ [] ∧ ip.all Char.isDigit ∧ fp.all Char.isDigit then
        some ((digitsVal (ip ++ fp) : ℚ) / (10 ^ fp.length))
      else none
  | _ => none

/-- `decimal.Decimal(s)` on a raw cell string: optional sign, then an
unsigned numeric string. -/
def parseDecimal (s : String) : Option ℚ :=
  match s.toList with
  | '-' :: rest => (parseUnsigned rest).map Neg.neg
  | '+' :: rest => parseUnsigned rest
  | cs => parseUnsigned cs

/-- `TubeData.convert_to_decimal`: each raw percent cell is parsed with
`Decimal` and divided by 100; a parse failure exits the program. -/
def convert_to_decimal : List String → Except PyErr (List ℚ)
  | [] => Except.ok []
  | s :: rest =>
      match parseDecimal s with
      | some q => (convert_to_decimal rest).map (fun l => q / 100 :: l)
      | none => Except.error PyErr.invalidOperation

/-! ## Count propagation (`TubeData.calculate_cell_counts`) -/

/-- One iteration of the loop body of `calculate_cell_counts` at
position `n` holding entry `e`, with `count_list` the list built so
far.  A blank count (Python `""`) is `none`.  Reading `count_list[i]`
out of range is an `IndexError`; multiplying the blank `""` by a
`Decimal` is a `TypeError`; `count_list[i]` is evaluated before
`percent_list[n]`. -/
def cell_count_step (cell_conc : ℚ) (percent_list : List ℚ)
    (count_list : List (Option ℚ)) (n : Nat) (e : CalcEntry) :
    Except PyErr (Option ℚ) :=
  match e with
  | CalcEntry.start =>
      match percent_list[n]? with
      | some p => Except.ok (some (cell_conc * p))
      | none => Except.error PyErr.indexError
  | CalcEntry.ignore => Except.ok none
  | CalcEntry.parentIndex j =>
      match count_list[j]? with
      | some (some c) =>
          match percent_list[n]? with
          | some p => Except.ok (some (c * p))
          | none => Except.error PyErr.indexError
      | some none => Except.error PyErr.typeError
      | none => Except.error PyErr.indexError

/-- The loop of `calculate_cell_counts`: `acc` is the current
`self.count_list`, `n` the current enumeration index. -/
def calculate_cell_counts_aux (cell_conc : ℚ) (percent_list : List ℚ)
    (acc : List (Option ℚ)) (n : Nat) :
    List CalcEntry → Except PyErr (List (Option ℚ))
  | [] => Except.ok acc
  | e :: rest =>
      match cell_count_step cell_conc percent_list acc n e with
      | Except.ok v =>
          calculate_cell_counts_aux cell_conc percent_list (acc ++ [v]) (n + 1) rest
      | Except.error err => Except.error err

/-- `TubeData.calculate_cell_counts` run on a fresh tube
(`self.count_list == []`). -/
def calculate_cell_counts (cell_conc : ℚ) (percent_list : List ℚ)
    (cl : List CalcEntry) : Except PyErr (List (Option ℚ)) :=
  calculate_cell_counts_aux cell_conc percent_list [] 0 cl

/-- `make_row_from_decimal`, value level: percents are re-expressed as
percentages by multiplying by 100 (string rendering is outside the
model, per the claim's "up to decimal normalization"). -/
def make_row_from_decimal (data : List ℚ) (percents : Bool) : List ℚ :=
  if percents then data.map (fun q => q * 100) else data

/-! ## Row parsing (`process_csv`, data rows) -/

/-- Python `str.strip(chars)`: removes leading and trailing characters
belonging to the set `chars` (NOT a prefix/suffix removal). -/
def py_strip (s : String) (chars : List Char) : String :=
  String.mk (((s.toList.dropWhile (fun c => decide (c ∈ chars))).reverse.dropWhile
    (fun c => decide (c ∈ chars))).reverse)

/-- `line[0].strip(".fcs")` from `process_csv`. -/
def tube_name (cell : String) : String :=
  py_strip cell ['.', 'f', 'c', 's']

/-- Processing of one data row of `process_csv`: the name is the first
cell stripped with `.strip(".fcs")`; rows whose (stripped) name is
`"Mean"` or `"SD"` are skipped; the percent cells are `line[1:-1]`.
`line[0]` on an empty row is an `IndexError`. -/
def process_row (line : List String) :
    Except PyErr (Option (String × List String)) :=
  match line with
  | [] => Except.error PyErr.indexError
  | c0 :: rest =>
      let name := tube_name c0
      if name = "Mean" ∨ name = "SD" then Except.ok none
      else Except.ok (some (name, ((c0 :: rest).drop 1).dropLast))

/-- Modelled from the spec: the claimed tube-name computation, "the
first cell with any trailing `.fcs` suffix removed".  Used only to
state the divergence from `tube_name`. -/
def drop_fcs (s : String) : String :=
  if List.isSuffixOf ['.', 'f', 'c', 's'] s.toList then
    String.mk (s.toList.take (s.toList.length - 4))
  else s

/-! ## Catalog building (`process_csv`, header row) -/

/-- Processing of one header cell of `process_csv`: no `" | "` in the
cell is a `sys.exit` (the spec's `MalformedPathError`); more than one
`" | "` makes the 2-tuple unpacking raise `ValueError`; otherwise the
cleaned gate is paired with its depth `len(cleaned.split("/"))`.  (The
`Freq. of Parent (%)` suffix mismatch only prints a warning.) -/
def clean_gate (gate : String) : Except PyErr (String × Nat) :=
  match splitPipe gate.toList with
  | [cleaned, _t] =>
      Except.ok (String.mk cleaned, (splitChar '/' cleaned).length)
  | [_] => Except.error PyErr.malformedPath
  | _ => Except.error PyErr.valueError

/-- The header loop of `process_csv` over the (already sliced)
`data[0][1:-1]` cells, producing the ordered catalog `gate_order`
together with the depths stored in `gates_dict` (catalog paths are
unique, so the dict is the association list). -/
def process_gates : List String → Except PyErr (List (String × Nat))
  | [] => Except.ok []
  | g :: rest =>
      match clean_gate g with
      | Except.ok p => (process_gates rest).map (fun l => p :: l)
      | Except.error e => Except.error e

/-! ## Root resolution (`check_starting_gate`, `ask_starting_gate`) -/

/-- Python `set.add`, on a duplicate-free list. -/
def addSet (l : List Nat) (a : Nat) : List Nat :=
  if a ∈ l then l else l ++ [a]

/-- Occurrence count of `d` in a list of depths. -/
def cnt (d : Nat) : List Nat → Nat
  | [] => 0
  | a :: l => (if a = d then 1 else 0) + cnt d l

/-- Python `max(...)` over a collection; `none` models the `ValueError`
raised on an empty collection. -/
def maxList : List Nat → Option Nat
  | [] => none
  | a :: l =>
      match maxList l with
      | none => some a
      | some b => some (max a b)

/-- Python `lengths_checked.difference(redundant_lengths)`. -/
def diffList (checked redundant : List Nat) : List Nat :=
  checked.filter (fun d => decide (d ∉ redundant))

/-- The scan loop of `check_starting_gate` over `gates.values()` (kept
in insertion order): returns `(lengths_checked, redundant_lengths,
only_one_start_gate)`.  A depth 1 already seen breaks immediately with
`only_one_start_gate = False`; any other repeated depth goes into
`redundant_lengths`. -/
def scan_loop : List Nat → List Nat → List Nat → List Nat × List Nat × Bool
  | [], checked, redundant => (checked, redundant, true)
  | a :: rest, checked, redundant =>
      if a ∈ checked ∧ a = 1 then (checked, redundant, false)
      else if a ∈ checked then
        scan_loop rest (addSet checked a) (addSet redundant a)
      else scan_loop rest (addSet checked a) redundant

/-- The `min_gate` loop of `check_starting_gate`: scans all `(gate,
number)` items and keeps the LAST gate whose depth is `d` (initial
value `""`). -/
def last_match (gates : List (String × Nat)) (d : Nat) : String :=
  gates.foldl (fun acc p => if p.2 = d then p.1 else acc) ""

/-- Python dict lookup `gates[key]` (keys unique); `none` models
`KeyError`. -/
def dict_get : List (String × Nat) → String → Option Nat
  | [], _ => none
  | p :: rest, key => if p.1 = key then some p.2 else dict_get rest key

/-- `ask_starting_gate` with the user's (validated) answer `k`:
`"/".join(min_gate.split("/")[:k])`. -/
def ask_starting_gate (min_gate : String) (k : Nat) : String :=
  String.mk (joinSep '/' ((splitChar '/' min_gate.toList).take k))

/-- `check_starting_gate`, with the disambiguator's chosen level `k`
injected: returns `(starting_gate_list, ignore_list)`.  `max` on an
empty set raises `ValueError`, `gates[start_gate_str]` may raise
`KeyError`. -/
def check_starting_gate (gates : List (String × Nat)) (k : Nat) :
    Except PyErr (List String × List String) :=
  let res := scan_loop (gates.map Prod.snd) [] []
  if res.2.2 then
    match maxList (diffList res.1 res.2.1) with
    | none => Except.error PyErr.valueError
    | some longest =>
        let min_gate := last_match gates longest
        let start_str := ask_starting_gate min_gate k
        match dict_get gates start_str with
        | none => Except.error PyErr.keyError
        | some num =>
            Except.ok ([start_str],
              gates.filterMap (fun p => if p.2 < num then some p.1 else none))
  else
    Except.ok
      (gates.filterMap (fun p => if p.2 = 1 then some p.1 else none), [])

/-- Modelled from the spec: "the first catalog gate whose depth equals
`candidateDepth`" — stated for comparison with the code's `last_match`
anchor selection. -/
def first_gate_with_depth : List (String × Nat) → Nat → Option String
  | [], _ => none
  | p :: rest, d => if p.2 = d then some p.1 else first_gate_with_depth rest d

/-! ## Parent resolution (`find_parent_gate`) -/

/-- `population.rsplit("/", 1)[0]`: everything before the last `/`, or
the whole string when there is no `/`. -/
def rsplit_parent (p : String) : String :=
  let parts := splitChar '/' p.toList
  if parts.length ≤ 1 then p else String.mk (joinSep '/' parts.dropLast)

/-- `g_list.index(x)`: index of the first occurrence; `none` models the
`ValueError` raised when `x` is absent. -/
def list_index : List String → String → Option Nat
  | [], _ => none
  | a :: rest, x =>
      if a = x then some 0 else (list_index rest x).map (fun j => j + 1)

/-- The body of `find_parent_gate` for one population `p`.  When the
derived parent path is absent from the catalog, the uncaught
`ValueError` raised by `g_list.index(...)` aborts the program; its
payload is the value that was searched for, i.e. the derived parent
path (`'X' is not in list`), not the population `p` itself. -/
def find_parent_one (starts g_list igns : List String) (p : String) :
    Except String CalcEntry :=
  if p ∈ starts then Except.ok CalcEntry.start
  else if p ∈ igns then Except.ok CalcEntry.ignore
  else
    match list_index g_list (rsplit_parent p) with
    | some j => Except.ok (CalcEntry.parentIndex j)
    | none => Except.error (rsplit_parent p)

/-- The loop of `find_parent_gate` over the remaining populations. -/
def find_parent_gate_aux (starts g_list igns : List String) :
    List String → Except String (List CalcEntry)
  | [] => Except.ok []
  | p :: rest =>
      match find_parent_one starts g_list igns p with
      | Except.ok e =>
          (find_parent_gate_aux starts g_list igns rest).map (fun l => e :: l)
      | Except.error q => Except.error q

/-- `find_parent_gate(start_gate_list, g_list, i_list)`. -/
def find_parent_gate (starts g_list igns : List String) :
    Except String (List CalcEntry) :=
  find_parent_gate_aux starts g_list igns g_list

/-! ## Parent chains -/

/-- Fuelled check that the parent chain from position `i` reaches a
`start` entry through strictly decreasing indices.  Since each valid
parent index is smaller than its child's index, fuel `i + 1` always
suffices. -/
def reachesStartFuel (cl : List CalcEntry) : Nat → Nat → Bool
  | 0, _ => false
  | fuel + 1, i =>
      match cl[i]? with
      | some CalcEntry.start => true
      | some (CalcEntry.parentIndex j) => decide (j < i) && reachesStartFuel cl fuel j
      | _ => false

/-- Position `i`'s parent chain reaches a `start` entry through
non-ignored positions. -/
def reachesStart (cl : List CalcEntry) (i : Nat) : Bool :=
  reachesStartFuel cl (i + 1) i

/-! ## Lemmas: sets, counting, maxima -/

lemma mem_addSet {l : List Nat} {a b : Nat} :
    b ∈ addSet l a ↔ b ∈ l ∨ b = a := by
  unfold addSet
  split_ifs with h
  · constructor
    · exact fun hb => Or.inl hb
    · rintro (hb | rfl)
      · exact hb
      · exact h
  · simp [List.mem_append]

lemma cnt_pos_iff {d : Nat} : ∀ {l : List Nat}, 1 ≤ cnt d l ↔ d ∈ l := by
  intro l
  induction l with
  | nil => simp [cnt]
  | cons a t ih =>
      by_cases h : a = d
      · subst h
        simp [cnt]
      · simp only [cnt, if_neg h, Nat.zero_add, ih, List.mem_cons]
        constructor
        · exact fun ht => Or.inr ht
        · rintro (rfl | ht)
          · exact absurd rfl h
          · exact ht

lemma maxList_none : ∀ {l : List Nat}, maxList l = none → l = [] := by
  intro l h
  cases l with
  | nil => rfl
  | cons a t =>
      cases hm : maxList t <;> simp [maxList, hm] at h

lemma maxList_spec : ∀ {l : List Nat} {d : Nat},
    maxList l = some d → d ∈ l ∧ ∀ x ∈ l, x ≤ d := by
  intro l
  induction l with
  | nil => intro d h; cases h
  | cons a t ih =>
      intro d h
      cases hm : maxList t with
      | none =>
          have ht : t = [] := maxList_none hm
          subst ht
          simp [maxList] at h
          subst h
          simp
      | some b =>
          rw [maxList, hm] at h
          have hd : d = max a b := by
            exact (Option.some.inj h).symm
          obtain ⟨hbmem, hbub⟩ := ih hm
          subst hd
          constructor
          · rcases Nat.le_total a b with hab | hba
            · have : max a b = b := Nat.max_eq_right hab
              rw [this]
              exact List.mem_cons_of_mem a hbmem
            · have : max a b = a := Nat.max_eq_left hba
              rw [this]
              exact List.mem_cons_self a t
          · intro x hx
            rcases List.mem_cons.1 hx with h | hxt
            · exact h.le.trans (Nat.le_max_left a b)
            · exact Nat.le_trans (hbub x hxt) (Nat.le_max_right a b)

lemma mem_diffList {c r : List Nat} {d : Nat} :
    d ∈ diffList c r ↔ d ∈ c ∧ d ∉ r := by
  simp [diffList, List.mem_filter]

/-! ## Lemmas: the depth scan of `check_starting_gate` -/

lemma scan_break : ∀ (l c r : List Nat),
    (1 ∈ c ∧ 1 ∈ l) ∨ 2 ≤ cnt 1 l → (scan_loop l c r).2.2 = false := by
  intro l
  induction l with
  | nil =>
      intro c r h
      rcases h with ⟨_, h⟩ | h
      · cases h
      · simp [cnt] at h
  | cons a rest ih =>
      intro c r h
      by_cases hcond : a ∈ c ∧ a = 1
      · rw [scan_loop, if_pos hcond]
      · rw [scan_loop, if_neg hcond]
        by_cases hac : a ∈ c
        · have ha1 : a ≠ 1 := fun h1 => hcond ⟨hac, h1⟩
          rw [if_pos hac]
          apply ih
          rcases h with ⟨h1c, h1l⟩ | h2
          · left
            refine ⟨mem_addSet.2 (Or.inl h1c), ?_⟩
            rcases List.mem_cons.1 h1l with h | h
            · exact absurd h.symm ha1
            · exact h
          · right
            have : cnt 1 (a :: rest) = cnt 1 rest := by
              simp [cnt, fun h => ha1 h]
            omega
        · rw [if_neg hac]
          apply ih
          rcases h with ⟨h1c, h1l⟩ | h2
          · left
            have ha1 : a ≠ 1 := fun h1 => hac (h1 ▸ h1c)
            refine ⟨mem_addSet.2 (Or.inl h1c), ?_⟩
            rcases List.mem_cons.1 h1l with h | h
            · exact absurd h.symm ha1
            · exact h
          · by_cases ha1 : a = 1
            · subst ha1
              left
              have hrest : 1 ≤ cnt 1 rest := by
                have : cnt 1 (1 :: rest) = 1 + cnt 1 rest := by simp [cnt]
                omega
              exact ⟨mem_addSet.2 (Or.inr rfl), cnt_pos_iff.1 hrest⟩
            · right
              have : cnt 1 (a :: rest) = cnt 1 rest := by
                simp [cnt, fun h => ha1 h]
              omega

lemma scan_complete : ∀ (l c r : List Nat), (1 ∈ c → 1 ∉ l) → cnt 1 l ≤ 1 →
    (scan_loop l c r).2.2 = true
    ∧ (∀ d, d ∈ (scan_loop l c r).1 ↔ d ∈ c ∨ d ∈ l)
    ∧ (∀ d, d ∈ (scan_loop l c r).2.1 ↔
        d ∈ r ∨ (d ∈ c ∧ d ∈ l) ∨ 2 ≤ cnt d l) := by
  intro l
  induction l with
  | nil =>
      intro c r _ _
      refine ⟨rfl, fun d => ?_, fun d => ?_⟩ <;> simp [scan_loop, cnt]
  | cons a rest ih =>
      intro c r h1 h2
      by_cases hac : a ∈ c
      · have ha1 : a ≠ 1 := by
          intro h
          exact h1 (h ▸ hac) (h ▸ List.mem_cons_self a rest)
        have hcond : ¬ (a ∈ c ∧ a = 1) := fun h => ha1 h.2
        rw [scan_loop, if_neg hcond, if_pos hac]
        have h1r : 1 ∈ addSet c a → 1 ∉ rest := by
          intro hm hr
          have h1c : 1 ∈ c := by
            rcases mem_addSet.1 hm with h | h
            · exact h
            · exact absurd h.symm ha1
          exact h1 h1c (List.mem_cons_of_mem a hr)
        have h2r : cnt 1 rest ≤ 1 := by
          have : cnt 1 (a :: rest) = cnt 1 rest := by
            simp [cnt, fun h => ha1 h]
          omega
        obtain ⟨ihb, ihc, ihr⟩ := ih (addSet c a) (addSet r a) h1r h2r
        refine ⟨ihb, fun d => ?_, fun d => ?_⟩
        · rw [ihc d, mem_addSet, List.mem_cons]
          constructor
          · rintro ((h | rfl) | h)
            · exact Or.inl h
            · exact Or.inl hac
            · exact Or.inr (Or.inr h)
          · rintro (h | (rfl | h))
            · exact Or.inl (Or.inl h)
            · exact Or.inl (Or.inl hac)
            · exact Or.inr h
        · rw [ihr d, mem_addSet, mem_addSet, List.mem_cons]
          by_cases had : a = d
          · subst had
            have hc1 : cnt a (a :: rest) = 1 + cnt a rest := by simp [cnt]
            constructor
            · intro _
              exact Or.inr (Or.inl ⟨hac, Or.inl rfl⟩)
            · intro _
              exact Or.inl (Or.inr rfl)
          · have hda : ¬ d = a := fun h => had h.symm
            have hcnt : cnt d (a :: rest) = cnt d rest := by
              simp [cnt, had]
            rw [hcnt]
            constructor
            · rintro ((h | h) | ⟨(h | h), hrest⟩ | h)
              · exact Or.inl h
              · exact absurd h hda
              · exact Or.inr (Or.inl ⟨h, Or.inr hrest⟩)
              · exact absurd h hda
              · exact Or.inr (Or.inr h)
            · rintro (h | ⟨hc, (h | h)⟩ | h)
              · exact Or.inl (Or.inl h)
              · exact absurd h hda
              · exact Or.inr (Or.inl ⟨Or.inl hc, h⟩)
              · exact Or.inr (Or.inr h)
      · have hcond : ¬ (a ∈ c ∧ a = 1) := fun h => hac h.1
        rw [scan_loop, if_neg hcond, if_neg hac]
        have h1r : 1 ∈ addSet c a → 1 ∉ rest := by
          intro hm hr
          rcases mem_addSet.1 hm with h | h
          · exact h1 h (List.mem_cons_of_mem a hr)
          · have ha1 : a = 1 := h.symm
            subst ha1
            have : cnt 1 (1 :: rest) = 1 + cnt 1 rest := by simp [cnt]
            have : 1 ≤ cnt 1 rest := cnt_pos_iff.2 hr
            omega
        have h2r : cnt 1 rest ≤ 1 := by
          have : cnt 1 (a :: rest) = (if a = 1 then 1 else 0) + cnt 1 rest := rfl
          omega
        obtain ⟨ihb, ihc, ihr⟩ := ih (addSet c a) r h1r h2r
        refine ⟨ihb, fun d => ?_, fun d => ?_⟩
        · rw [ihc d, mem_addSet, List.mem_cons]
          constructor
          · rintro ((h | rfl) | h)
            · exact Or.inl h
            · exact Or.inr (Or.inl rfl)
            · exact Or.inr (Or.inr h)
          · rintro (h | (rfl | h))
            · exact Or.inl (Or.inl h)
            · exact Or.inl (Or.inr rfl)
            · exact Or.inr h
        · rw [ihr d, mem_addSet, List.mem_cons]
          by_cases had : a = d
          · subst had
            have hc1 : cnt a (a :: rest) = 1 + cnt a rest := by simp [cnt]
            have hmem : a ∈ rest ↔ 1 ≤ cnt a rest := cnt_pos_iff.symm
            constructor
            · rintro (h | ⟨(h | h), hrest⟩ | h)
              · exact Or.inl h
              · exact absurd h hac
              · right; right
                have := hmem.1 hrest
                omega
              · right; right
                omega
            · rintro (h | ⟨hc, _⟩ | h)
              · exact Or.inl h
              · exact absurd hc hac
              · right; left
                refine ⟨Or.inr rfl, hmem.2 ?_⟩
                omega
          · have hda : ¬ d = a := fun h => had h.symm
            have hcnt : cnt d (a :: rest) = cnt d rest := by
              simp [cnt, had]
            rw [hcnt]
            constructor
            · rintro (h | ⟨(h | h), hrest⟩ | h)
              · exact Or.inl h
              · exact Or.inr (Or.inl ⟨h, Or.inr hrest⟩)
              · exact absurd h hda
              · exact Or.inr (Or.inr h)
            · rintro (h | ⟨hc, (h | h)⟩ | h)
              · exact Or.inl h
              · exact absurd h hda
              · exact Or.inr (Or.inl ⟨Or.inl hc, h⟩)
              · exact Or.inr (Or.inr h)

/-! ## Lemmas: `check_starting_gate` outcomes -/

lemma check_multiroot (gates : List (String × Nat)) (k : Nat)
    (h : 2 ≤ cnt 1 (gates.map Prod.snd)) :
    check_starting_gate gates k =
      Except.ok
        (gates.filterMap (fun p => if p.2 = 1 then some p.1 else none), []) := by
  have hb := scan_break (gates.map Prod.snd) [] [] (Or.inr h)
  simp [check_starting_gate, hb]

lemma check_singleroot (gates : List (String × Nat)) (k d : Nat)
    (h1 : cnt 1 (gates.map Prod.snd) ≤ 1)
    (hmax : maxList (diffList (scan_loop (gates.map Prod.snd) [] []).1
        (scan_loop (gates.map Prod.snd) [] []).2.1) = some d)
    (hdict : dict_get gates (ask_starting_gate (last_match gates d) k) = some k) :
    check_starting_gate gates k =
      Except.ok ([ask_starting_gate (last_match gates d) k],
        gates.filterMap (fun p => if p.2 < k then some p.1 else none)) := by
  have hsc := scan_complete (gates.map Prod.snd) [] [] (by simp) h1
  simp [check_starting_gate, hsc.1, hmax, hdict]

/-- In the single-root branch, `longest_shared` (the value fed to the
anchor search) is the greatest depth occurring exactly once in the
catalog's depth sequence. -/
lemma candidate_depth_char (gates : List (String × Nat)) (d : Nat)
    (h1 : cnt 1 (gates.map Prod.snd) ≤ 1)
    (hmax : maxList (diffList (scan_loop (gates.map Prod.snd) [] []).1
        (scan_loop (gates.map Prod.snd) [] []).2.1) = some d) :
    cnt d (gates.map Prod.snd) = 1
    ∧ ∀ x ∈ gates.map Prod.snd,
        cnt x (gates.map Prod.snd) = 1 → x ≤ d := by
  have hsc := scan_complete (gates.map Prod.snd) [] [] (by simp) h1
  obtain ⟨hdm, hdub⟩ := maxList_spec hmax
  have hmemiff : ∀ x, x ∈ diffList (scan_loop (gates.map Prod.snd) [] []).1
      (scan_loop (gates.map Prod.snd) [] []).2.1 ↔
      cnt x (gates.map Prod.snd) = 1 := by
    intro x
    rw [mem_diffList, hsc.2.1 x, hsc.2.2 x]
    constructor
    · rintro ⟨hin, hnot⟩
      have hx : x ∈ gates.map Prod.snd := by
        rcases hin with h | h
        · exact absurd h (List.not_mem_nil x)
        · exact h
      have hpos : 1 ≤ cnt x (gates.map Prod.snd) := cnt_pos_iff.2 hx
      have hlt : ¬ 2 ≤ cnt x (gates.map Prod.snd) :=
        fun h2 => hnot (Or.inr (Or.inr h2))
      omega
    · intro hx
      have hx1 : x ∈ gates.map Prod.snd := cnt_pos_iff.1 (by omega)
      refine ⟨Or.inr hx1, ?_⟩
      rintro (h | ⟨h, _⟩ | h2)
      · exact List.not_mem_nil x h
      · exact List.not_mem_nil x h
      · omega
  refine ⟨(hmemiff d).1 hdm, fun x _ hx => hdub x ((hmemiff x).2 hx)⟩

/-! ## Lemmas: the anchor chosen by the `min_gate` loop -/

lemma foldl_no_match (d : Nat) : ∀ (l : List (String × Nat)) (a : String),
    cnt d (l.map Prod.snd) = 0 →
    l.foldl (fun acc p => if p.2 = d then p.1 else acc) a = a := by
  intro l
  induction l with
  | nil => intro a _; rfl
  | cons p t ih =>
      intro a h
      have hsplit : (if p.2 = d then 1 else 0) + cnt d (t.map Prod.snd) = 0 := h
      have hp : ¬ p.2 = d := by
        by_cases hc : p.2 = d
        · rw [if_pos hc] at hsplit; omega
        · exact hc
      have ht : cnt d (t.map Prod.snd) = 0 := by
        rw [if_neg hp] at hsplit; omega
      rw [List.foldl_cons, if_neg hp]
      exact ih a ht

/-- When depth `d` occurs exactly once, the code's last-match scan and
the spec's first-match rule pick the same gate. -/
lemma last_match_unique : ∀ (gates : List (String × Nat)) (d : Nat),
    cnt d (gates.map Prod.snd) = 1 →
    ∃ g, first_gate_with_depth gates d = some g ∧ last_match gates d = g := by
  intro gates
  induction gates with
  | nil => intro d h; simp [cnt] at h
  | cons p t ih =>
      intro d h
      have hsplit : (if p.2 = d then 1 else 0) + cnt d (t.map Prod.snd) = 1 := h
      by_cases hp : p.2 = d
      · have ht : cnt d (t.map Prod.snd) = 0 := by
          rw [if_pos hp] at hsplit; omega
        refine ⟨p.1, ?_, ?_⟩
        · rw [first_gate_with_depth, if_pos hp]
        · rw [last_match, List.foldl_cons, if_pos hp]
          exact foldl_no_match d t p.1 ht
      · have ht : cnt d (t.map Prod.snd) = 1 := by
          rw [if_neg hp] at hsplit; omega
        obtain ⟨g, hg1, hg2⟩ := ih d ht
        refine ⟨g, ?_, ?_⟩
        · rw [first_gate_with_depth, if_neg hp]
          exact hg1
        · rw [last_match, List.foldl_cons, if_neg hp]
          exact hg2

/-! ## Lemmas: `calculate_cell_counts` -/

lemma getElem_none_le {α : Type} {l : List α} {n : Nat} (h : l[n]? = none) :
    l.length ≤ n := by
  by_contra hc
  push_neg at hc
  rw [List.getElem?_eq_getElem hc] at h
  cases h

lemma get_take_some {α : Type} {l : List α} {m j : Nat} {x : α}
    (h : (l.take m)[j]? = some x) : j < m ∧ l[j]? = some x := by
  by_cases hj : j < m
  · refine ⟨hj, ?_⟩
    rw [List.getElem?_take_of_lt hj] at h
    exact h
  · exfalso
    have hlen : (l.take m).length ≤ j := by
      have := List.length_take m l
      omega
    rw [List.getElem?_eq_none hlen] at h
    cases h

lemma step_start_inv {conc : ℚ} {pl : List ℚ} {acc : List (Option ℚ)}
    {n : Nat} {v : Option ℚ}
    (h : cell_count_step conc pl acc n CalcEntry.start = Except.ok v) :
    ∃ p, pl[n]? = some p ∧ v = some (conc * p) := by
  cases hp : pl[n]? with
  | none => simp [cell_count_step, hp] at h
  | some p =>
      refine ⟨p, rfl, ?_⟩
      simp only [cell_count_step, hp] at h
      exact (Except.ok.inj h).symm

lemma step_ignore_inv {conc : ℚ} {pl : List ℚ} {acc : List (Option ℚ)}
    {n : Nat} {v : Option ℚ}
    (h : cell_count_step conc pl acc n CalcEntry.ignore = Except.ok v) :
    v = none := by
  simp only [cell_count_step] at h
  exact (Except.ok.inj h).symm

lemma step_parent_inv {conc : ℚ} {pl : List ℚ} {acc : List (Option ℚ)}
    {n j : Nat} {v : Option ℚ}
    (h : cell_count_step conc pl acc n (CalcEntry.parentIndex j) = Except.ok v) :
    ∃ c p, acc[j]? = some (some c) ∧ pl[n]? = some p
      ∧ v = some (c * p) := by
  cases hc : acc[j]? with
  | none => simp [cell_count_step, hc] at h
  | some o =>
      cases o with
      | none => simp [cell_count_step, hc] at h
      | some c =>
          cases hp : pl[n]? with
          | none => simp [cell_count_step, hc, hp] at h
          | some p =>
              refine ⟨c, p, rfl, rfl, ?_⟩
              simp only [cell_count_step, hc, hp] at h
              exact (Except.ok.inj h).symm

lemma calculate_aux_ok (conc : ℚ) (pl : List ℚ) :
    ∀ (rest : List CalcEntry) (acc : List (Option ℚ)) (n : Nat)
      (out : List (Option ℚ)),
      calculate_cell_counts_aux conc pl acc n rest = Except.ok out →
      ∃ ext, out = acc ++ ext ∧ ext.length = rest.length ∧
        ∀ (m : Nat) (e : CalcEntry), rest[m]? = some e →
          ∃ v, cell_count_step conc pl (acc ++ ext.take m) (n + m) e = Except.ok v
            ∧ ext[m]? = some v := by
  intro rest
  induction rest with
  | nil =>
      intro acc n out h
      simp only [calculate_cell_counts_aux] at h
      have hout : acc = out := Except.ok.inj h
      refine ⟨[], ?_, rfl, ?_⟩
      · rw [List.append_nil]
        exact hout.symm
      · intro m e hm
        simp at hm
  | cons e rest ih =>
      intro acc n out h
      cases hs : cell_count_step conc pl acc n e with
      | ok v =>
          simp only [calculate_cell_counts_aux, hs] at h
          obtain ⟨ext, hout, hlen, hsteps⟩ := ih (acc ++ [v]) (n + 1) out h
          refine ⟨v :: ext, ?_, by simp [hlen], ?_⟩
          · rw [hout, List.append_assoc]
            rfl
          · intro m e2 hm
            cases m with
            | zero =>
                rw [List.getElem?_cons_zero] at hm
                have he : e = e2 := Option.some.inj hm
                subst he
                refine ⟨v, ?_, by simp⟩
                simpa using hs
            | succ m =>
                rw [List.getElem?_cons_succ] at hm
                obtain ⟨v2, hstep2, hget2⟩ := hsteps m e2 hm
                refine ⟨v2, ?_, by simpa using hget2⟩
                have h1 : (acc ++ [v]) ++ ext.take m
                    = acc ++ (v :: ext).take (m + 1) := by
                  rw [List.append_assoc]
                  rfl
                have h2 : (n + 1) + m = n + (m + 1) := by omega
                rw [← h1, ← h2]
                exact hstep2
      | error err =>
          simp only [calculate_cell_counts_aux, hs] at h
          exact Except.noConfusion h

lemma calculate_ok_spec (conc : ℚ) (pl : List ℚ) (cl : List CalcEntry)
    (counts : List (Option ℚ))
    (h : calculate_cell_counts conc pl cl = Except.ok counts) :
    counts.length = cl.length
    ∧ ∀ (m : Nat) (e : CalcEntry), cl[m]? = some e →
        ∃ v, cell_count_step conc pl (counts.take m) m e = Except.ok v
          ∧ counts[m]? = some v := by
  obtain ⟨ext, hout, hlen, hsteps⟩ := calculate_aux_ok conc pl cl [] 0 counts h
  have hext : ext = counts := by simpa using hout.symm
  subst hext
  refine ⟨hlen, fun m e hm => ?_⟩
  obtain ⟨v, hv, hg⟩ := hsteps m e hm
  refine ⟨v, ?_, hg⟩
  simpa using hv

lemma calculate_ok_clauses (conc : ℚ) (pl : List ℚ) (cl : List CalcEntry)
    (counts : List (Option ℚ))
    (h : calculate_cell_counts conc pl cl = Except.ok counts) :
    counts.length = cl.length
    ∧ (∀ (i : Nat), cl[i]? = some CalcEntry.start →
        ∃ p, pl[i]? = some p ∧ counts[i]? = some (some (conc * p)))
    ∧ (∀ (i : Nat), cl[i]? = some CalcEntry.ignore → counts[i]? = some none)
    ∧ (∀ (i j : Nat), cl[i]? = some (CalcEntry.parentIndex j) →
        ∃ c p, j < i ∧ counts[j]? = some (some c) ∧ pl[i]? = some p
          ∧ counts[i]? = some (some (c * p))) := by
  obtain ⟨hlen, hsteps⟩ := calculate_ok_spec conc pl cl counts h
  refine ⟨hlen, ?_, ?_, ?_⟩
  · intro i hi
    obtain ⟨v, hv, hg⟩ := hsteps i _ hi
    obtain ⟨p, hp, hvp⟩ := step_start_inv hv
    exact ⟨p, hp, hvp ▸ hg⟩
  · intro i hi
    obtain ⟨v, hv, hg⟩ := hsteps i _ hi
    have hvn := step_ignore_inv hv
    exact hvn ▸ hg
  · intro i j hi
    obtain ⟨v, hv, hg⟩ := hsteps i _ hi
    obtain ⟨c, p, hc, hp, hvp⟩ := step_parent_inv hv
    obtain ⟨hj, hcj⟩ := get_take_some hc
    exact ⟨c, p, hj, hcj, hp, hvp ▸ hg⟩

lemma step_transfer {conc : ℚ} {pl : List ℚ} {acc1 acc2 : List (Option ℚ)}
    {n : Nat} {e : CalcEntry} {v : Option ℚ}
    (hsub : ∀ (j : Nat) (x : Option ℚ), acc1[j]? = some x → acc2[j]? = some x)
    (h : cell_count_step conc pl acc1 n e = Except.ok v) :
    cell_count_step conc pl acc2 n e = Except.ok v := by
  cases e with
  | start => exact h
  | ignore => exact h
  | parentIndex j =>
      obtain ⟨c, p, hc, hp, hv⟩ := step_parent_inv h
      have hc2 := hsub j (some c) hc
      simp [cell_count_step, hc2, hp, hv]

lemma calculate_aux_shift (conc : ℚ) (pl : List ℚ) (counts : List (Option ℚ)) :
    ∀ (rest : List CalcEntry) (m : Nat),
      m + rest.length = counts.length →
      (∀ (k : Nat) (e : CalcEntry), rest[k]? = some e →
        ∃ v, cell_count_step conc pl (counts.take (m + k)) (m + k) e = Except.ok v
          ∧ counts[m + k]? = some v) →
      calculate_cell_counts_aux conc pl (counts ++ counts.take m) m rest =
        Except.ok (counts ++ counts) := by
  intro rest
  induction rest with
  | nil =>
      intro m hm _
      have hm' : counts.length ≤ m := by
        simp at hm
        omega
      rw [List.take_of_length_le hm']
      rfl
  | cons e rest ih =>
      intro m hm hsteps
      have hm' : m + (rest.length + 1) = counts.length := by simpa using hm
      obtain ⟨v, hv, hgv⟩ := hsteps 0 e (by simp)
      have hv0 : cell_count_step conc pl (counts.take m) m e = Except.ok v := by
        simpa using hv
      have hgv' : counts[m]? = some v := by simpa using hgv
      have hv' : cell_count_step conc pl (counts ++ counts.take m) m e
          = Except.ok v := by
        apply step_transfer _ hv0
        intro j x hj
        obtain ⟨hjm, hcj⟩ := get_take_some hj
        rw [List.getElem?_append_left (by omega)]
        exact hcj
      simp only [calculate_cell_counts_aux, hv']
      have hacc : (counts ++ counts.take m) ++ [v]
          = counts ++ counts.take (m + 1) := by
        rw [List.append_assoc]
        congr 1
        rw [List.take_succ, hgv']
        rfl
      rw [hacc]
      apply ih (m + 1) (by omega)
      intro k e2 hk
      obtain ⟨v2, hv2, hg2⟩ := hsteps (k + 1) e2 (by simpa using hk)
      have harith : m + (k + 1) = (m + 1) + k := by omega
      rw [harith] at hv2 hg2
      exact ⟨v2, hv2, hg2⟩

/-- Re-running `calculate_cell_counts` on a tube whose `count_list`
already holds a successful first run appends an identical copy of the
counts (the Python method mutates `self.count_list` by appending). -/
lemma calculate_twice (conc : ℚ) (pl : List ℚ) (cl : List CalcEntry)
    (counts : List (Option ℚ))
    (h : calculate_cell_counts conc pl cl = Except.ok counts) :
    calculate_cell_counts_aux conc pl counts 0 cl = Except.ok (counts ++ counts) := by
  obtain ⟨hlen, hsteps⟩ := calculate_ok_spec conc pl cl counts h
  have hshift := calculate_aux_shift conc pl counts cl 0 (by omega) ?_
  · simpa using hshift
  · intro k e hk
    obtain ⟨v, hv, hg⟩ := hsteps k e hk
    refine ⟨v, ?_, ?_⟩
    · simpa using hv
    · simpa using hg

/-! ## Lemmas: parent chains -/

lemma reachesStartFuel_mono (cl : List CalcEntry) :
    ∀ f1 f2 i, f1 ≤ f2 → reachesStartFuel cl f1 i = true →
      reachesStartFuel cl f2 i = true := by
  intro f1
  induction f1 with
  | zero =>
      intro f2 i _ h
      simp [reachesStartFuel] at h
  | succ f ih =>
      intro f2 i hle h
      cases f2 with
      | zero => omega
      | succ f2 =>
          cases hc : cl[i]? with
          | none => simp [reachesStartFuel, hc] at h
          | some e2 =>
              cases e2 with
              | start => simp [reachesStartFuel, hc]
              | ignore => simp [reachesStartFuel, hc] at h
              | parentIndex j =>
                  simp only [reachesStartFuel, hc] at h ⊢
                  rw [Bool.and_eq_true] at h ⊢
                  exact ⟨h.1, ih f2 j (by omega) h.2⟩

/-- In a successful run, every numeric count sits on a parent chain
that reaches a `start` entry. -/
lemma calculate_ok_reaches (conc : ℚ) (pl : List ℚ) (cl : List CalcEntry)
    (counts : List (Option ℚ))
    (h : calculate_cell_counts conc pl cl = Except.ok counts) :
    ∀ (i : Nat) (c : ℚ), counts[i]? = some (some c) → reachesStart cl i = true := by
  obtain ⟨hlen, hstart, hignore, hparent⟩ := calculate_ok_clauses conc pl cl counts h
  intro i
  induction i using Nat.strong_induction_on with
  | _ i ih =>
      intro c hc
      have hi : i < counts.length := by
        by_contra hni
        rw [List.getElem?_eq_none (by omega)] at hc
        cases hc
      have hcl : i < cl.length := by omega
      cases he : cl[i]? with
      | none =>
          have := getElem_none_le he
          omega
      | some e =>
          cases e with
          | start =>
              unfold reachesStart
              simp [reachesStartFuel, he]
          | ignore =>
              have hn := hignore i he
              rw [hn] at hc
              simp at hc
          | parentIndex j =>
              obtain ⟨c2, p, hj, hcj, hp, hci⟩ := hparent i j he
              have hrj : reachesStart cl j = true := ih j hj c2 hcj
              unfold reachesStart at hrj ⊢
              simp only [reachesStartFuel, he]
              rw [Bool.and_eq_true]
              refine ⟨by simpa using hj, ?_⟩
              exact reachesStartFuel_mono cl (j + 1) i j (by omega) hrj

/-- A catalog position whose parent is ignore-classified makes the
whole propagation abort (blank `""` cannot be multiplied). -/
lemma calculate_ignore_parent_error (conc : ℚ) (pl : List ℚ)
    (cl : List CalcEntry) (i j : Nat)
    (hi : cl[i]? = some (CalcEntry.parentIndex j))
    (hj : cl[j]? = some CalcEntry.ignore) :
    ∃ err, calculate_cell_counts conc pl cl = Except.error err := by
  cases hres : calculate_cell_counts conc pl cl with
  | error e => exact ⟨e, rfl⟩
  | ok counts =>
      exfalso
      obtain ⟨hlen, hstart, hignore, hparent⟩ :=
        calculate_ok_clauses conc pl cl counts hres
      obtain ⟨c, p, hlt, hcj, _, _⟩ := hparent i j hi
      have hn := hignore j hj
      rw [hn] at hcj
      simp at hcj

/-! ## Lemmas: `find_parent_gate` -/

lemma list_index_get : ∀ (l : List String) (x : String) (j : Nat),
    list_index l x = some j → l[j]? = some x := by
  intro l
  induction l with
  | nil => intro x j h; cases h
  | cons a rest ih =>
      intro x j h
      simp only [list_index] at h
      by_cases hax : a = x
      · rw [if_pos hax] at h
        have hj : 0 = j := Option.some.inj h
        subst hj
        simp [hax]
      · rw [if_neg hax] at h
        cases hj : list_index rest x with
        | none => rw [hj] at h; cases h
        | some j2 =>
            rw [hj] at h
            have hjj : j2 + 1 = j := by simpa using h
            subst hjj
            rw [List.getElem?_cons_succ]
            exact ih x j2 hj

lemma find_parent_aux_ok (starts g_list igns : List String) :
    ∀ (sub : List String) (out : List CalcEntry),
      find_parent_gate_aux starts g_list igns sub = Except.ok out →
      out.length = sub.length ∧
        ∀ (i : Nat) (p : String), sub[i]? = some p →
          ∃ e, find_parent_one starts g_list igns p = Except.ok e
            ∧ out[i]? = some e := by
  intro sub
  induction sub with
  | nil =>
      intro out h
      simp only [find_parent_gate_aux] at h
      obtain rfl := Except.ok.inj h
      refine ⟨rfl, ?_⟩
      intro i p hp
      simp at hp
  | cons p rest ih =>
      intro out h
      cases hone : find_parent_one starts g_list igns p with
      | ok e =>
          simp only [find_parent_gate_aux, hone] at h
          cases hrest : find_parent_gate_aux starts g_list igns rest with
          | ok out2 =>
              rw [hrest] at h
              simp only [Except.map] at h
              obtain rfl := Except.ok.inj h
              obtain ⟨hlen, hsteps⟩ := ih out2 hrest
              refine ⟨by simp [hlen], ?_⟩
              intro i q hq
              cases i with
              | zero =>
                  rw [List.getElem?_cons_zero] at hq
                  obtain rfl := Option.some.inj hq
                  exact ⟨e, hone, by simp⟩
              | succ i =>
                  rw [List.getElem?_cons_succ] at hq
                  obtain ⟨e2, he2, hg2⟩ := hsteps i q hq
                  exact ⟨e2, he2, by simpa using hg2⟩
          | error q2 =>
              rw [hrest] at h
              simp only [Except.map] at h
              exact Except.noConfusion h
      | error q =>
          simp only [find_parent_gate_aux, hone] at h
          exact Except.noConfusion h

lemma find_parent_aux_not_ok (starts g_list igns : List String)
    (sub : List String) (i : Nat) (p q : String) (hp : sub[i]? = some p)
    (herr : find_parent_one starts g_list igns p = Except.error q) :
    ∀ out, find_parent_gate_aux starts g_list igns sub ≠ Except.ok out := by
  intro out hok
  obtain ⟨hlen, hsteps⟩ := find_parent_aux_ok starts g_list igns sub out hok
  obtain ⟨e, he, _⟩ := hsteps i p hp
  rw [herr] at he
  exact Except.noConfusion he

lemma find_parent_one_other {starts g_list igns : List String} {p : String}
    (hs : p ∉ starts) (hi : p ∉ igns) :
    find_parent_one starts g_list igns p =
      match list_index g_list (rsplit_parent p) with
      | some j => Except.ok (CalcEntry.parentIndex j)
      | none => Except.error (rsplit_parent p) := by
  simp [find_parent_one, hs, hi]

/-! ## Lemmas: `process_gates` -/

lemma clean_gate_depth {g : String} {pr : String × Nat}
    (h : clean_gate g = Except.ok pr) :
    pr.2 = (splitChar '/' pr.1.toList).length := by
  cases hsp : splitPipe g.data with
  | nil => simp [clean_gate, hsp] at h
  | cons c1 t =>
      cases t with
      | nil => simp [clean_gate, hsp] at h
      | cons c2 t2 =>
          cases t2 with
          | nil =>
              simp only [clean_gate, String.toList] at h
              rw [hsp] at h
              obtain rfl := Except.ok.inj h
              rfl
          | cons c3 t3 => simp [clean_gate, hsp] at h

lemma process_gates_ok_depths : ∀ (gs : List String) (res : List (String × Nat)),
    process_gates gs = Except.ok res →
    ∀ pr ∈ res, pr.2 = (splitChar '/' pr.1.toList).length := by
  intro gs
  induction gs with
  | nil =>
      intro res h pr hpr
      simp only [process_gates] at h
      obtain rfl := Except.ok.inj h
      simp at hpr
  | cons g rest ih =>
      intro res h pr hpr
      cases hg : clean_gate g with
      | ok p =>
          simp only [process_gates, hg] at h
          cases hr : process_gates rest with
          | ok res2 =>
              rw [hr] at h
              simp only [Except.map] at h
              obtain rfl := Except.ok.inj h
              rcases List.mem_cons.1 hpr with rfl | hmem
              · exact clean_gate_depth hg
              · exact ih res2 hr pr hmem
          | error e =>
              rw [hr] at h
              simp only [Except.map] at h
              exact Except.noConfusion h
      | error e =>
          simp only [process_gates, hg] at h
          exact Except.noConfusion h

lemma process_gates_empty_fails : ∀ (gs : List String), "" ∈ gs →
    ∃ e, process_gates gs = Except.error e := by
  intro gs
  induction gs with
  | nil => intro h; simp at h
  | cons g rest ih =>
      intro h
      rcases List.mem_cons.1 h with rfl | hmem
      · exact ⟨PyErr.malformedPath, rfl⟩
      · cases hg : clean_gate g with
        | ok p =>
            obtain ⟨e, he⟩ := ih hmem
            refine ⟨e, ?_⟩
            simp [process_gates, hg, he, Except.map]
        | error e2 =>
            refine ⟨e2, ?_⟩
            simp [process_gates, hg]

/-! ## Claims -/

/-- Claim C1: for every sample and resolved parent-reference list,
processing catalog positions in ascending index order, a successful
run gives: at a `Start` position `count[i] = cellConcentration *
percent[i]`; at an `Ignore` position the count is blank (`none`); at a
`ParentIndex j` position `count[i] = count[j] * percent[i]` with the
parent's count already computed (`j < i`). -/
theorem claim_C1 (conc : ℚ) (pl : List ℚ) (cl : List CalcEntry)
    (counts : List (Option ℚ))
    (h : calculate_cell_counts conc pl cl = Except.ok counts) :
    counts.length = cl.length
    ∧ (∀ (i : Nat), cl[i]? = some CalcEntry.start →
        ∃ p, pl[i]? = some p ∧ counts[i]? = some (some (conc * p)))
    ∧ (∀ (i : Nat), cl[i]? = some CalcEntry.ignore → counts[i]? = some none)
    ∧ (∀ (i j : Nat), cl[i]? = some (CalcEntry.parentIndex j) →
        ∃ c p, j < i ∧ counts[j]? = some (some c) ∧ pl[i]? = some p
          ∧ counts[i]? = some (some (c * p))) :=
  calculate_ok_clauses conc pl cl counts h

theorem claim_C1_witness :
    (([some ((10 : ℚ) * (4/5)), some ((10 : ℚ) * (4/5) * (1/2))] :
        List (Option ℚ)).length
      = ([CalcEntry.start, CalcEntry.parentIndex 0] : List CalcEntry).length) :=
  (claim_C1 10 [4/5, 1/2] [CalcEntry.start, CalcEntry.parentIndex 0]
    [some (10 * (4/5)), some (10 * (4/5) * (1/2))] (by rfl)).1

/-- Claim C2: a depth 1 seen a second time classifies the catalog as
multi-root: the starting gates are exactly the depth-1 gates (in
catalog order) and the ignore list is empty; on `["A", "B", "A/C"]`
this yields starting gates `A, B` and `"A/C"` resolves to
`ParentIndex 0`, pointing at `"A"`. -/
theorem claim_C2 :
    (∀ (gates : List (String × Nat)) (k : Nat),
      2 ≤ cnt 1 (gates.map Prod.snd) →
      check_starting_gate gates k =
        Except.ok
          (gates.filterMap (fun p => if p.2 = 1 then some p.1 else none), []))
    ∧ check_starting_gate [("A", 1), ("B", 1), ("A/C", 2)] 1 =
        Except.ok (["A", "B"], [])
    ∧ find_parent_gate ["A", "B"] ["A", "B", "A/C"] [] =
        Except.ok [CalcEntry.start, CalcEntry.start, CalcEntry.parentIndex 0]
    ∧ (["A", "B", "A/C"] : List String)[0]? = some "A" :=
  ⟨check_multiroot, by rfl, by rfl, by rfl⟩

theorem claim_C2_witness :
    check_starting_gate [("X", 1), ("Y", 1)] 1 = Except.ok (["X", "Y"], []) :=
  claim_C2.1 [("X", 1), ("Y", 1)] 1 (by decide)

/-- Claim C3: with no repeated depth-1 entry, the candidate depth is
the greatest depth seen exactly once; for the disambiguator's level
`k` (whose `k`-segment anchor prefix is in the catalog with depth `k`,
as the catalog-order invariant guarantees), the start path is the
first `k` segments of the anchor and the ignore list is every gate of
depth `< k`; the `Singlets` example behaves as claimed. -/
theorem claim_C3 :
    (∀ (gates : List (String × Nat)) (k d : Nat),
      cnt 1 (gates.map Prod.snd) ≤ 1 →
      maxList (diffList (scan_loop (gates.map Prod.snd) [] []).1
          (scan_loop (gates.map Prod.snd) [] []).2.1) = some d →
      dict_get gates (ask_starting_gate (last_match gates d) k) = some k →
      check_starting_gate gates k =
          Except.ok ([ask_starting_gate (last_match gates d) k],
            gates.filterMap (fun p => if p.2 < k then some p.1 else none))
        ∧ cnt d (gates.map Prod.snd) = 1
        ∧ ∀ x ∈ gates.map Prod.snd, cnt x (gates.map Prod.snd) = 1 → x ≤ d)
    ∧ check_starting_gate
        [("Singlets", 1), ("Singlets/Live", 2), ("Singlets/Live/CD3+", 3)] 2 =
        Except.ok (["Singlets/Live"], ["Singlets"])
    ∧ ask_starting_gate "Singlets/Live/CD3+" 2 = "Singlets/Live"
    ∧ find_parent_gate ["Singlets/Live"]
        ["Singlets", "Singlets/Live", "Singlets/Live/CD3+"] ["Singlets"] =
        Except.ok [CalcEntry.ignore, CalcEntry.start, CalcEntry.parentIndex 1]
    ∧ (["Singlets", "Singlets/Live", "Singlets/Live/CD3+"] :
        List String)[1]? = some "Singlets/Live" := by
  refine ⟨?_, by rfl, by rfl, by rfl, by rfl⟩
  intro gates k d h1 hmax hdict
  exact ⟨check_singleroot gates k d h1 hmax hdict,
    (candidate_depth_char gates d h1 hmax).1,
    (candidate_depth_char gates d h1 hmax).2⟩

theorem claim_C3_witness :
    check_starting_gate
      [("Singlets", 1), ("Singlets/Live", 2), ("Singlets/Live/CD3+", 3)] 2 =
      Except.ok (["Singlets/Live"], ["Singlets"]) :=
  (claim_C3.1 [("Singlets", 1), ("Singlets/Live", 2), ("Singlets/Live/CD3+", 3)]
    2 3 (by decide) (by rfl) (by rfl)).1

/-- Claim C4: in the single-root branch the anchor shown to the
disambiguator (the code's `min_gate`, which keeps the LAST match of
the scan) is exactly the first catalog gate whose depth equals the
candidate depth — in fact that depth occurs exactly once, so first
and last match coincide and the claimed tie situation cannot arise. -/
theorem claim_C4 (gates : List (String × Nat)) (d : Nat)
    (h1 : cnt 1 (gates.map Prod.snd) ≤ 1)
    (hmax : maxList (diffList (scan_loop (gates.map Prod.snd) [] []).1
        (scan_loop (gates.map Prod.snd) [] []).2.1) = some d) :
    first_gate_with_depth gates d = some (last_match gates d)
    ∧ cnt d (gates.map Prod.snd) = 1 := by
  obtain ⟨hcnt, _⟩ := candidate_depth_char gates d h1 hmax
  obtain ⟨g, hg1, hg2⟩ := last_match_unique gates d hcnt
  exact ⟨by rw [hg1, hg2], hcnt⟩

theorem claim_C4_witness :
    first_gate_with_depth
      [("Singlets", 1), ("Singlets/Live", 2), ("Singlets/Live/CD3+", 3)] 3 =
      some (last_match
        [("Singlets", 1), ("Singlets/Live", 2), ("Singlets/Live/CD3+", 3)] 3) :=
  (claim_C4 [("Singlets", 1), ("Singlets/Live", 2), ("Singlets/Live/CD3+", 3)]
    3 (by decide) (by rfl)).1

/-- Claim C5: percent and count arithmetic is exact (modelled over
exact rationals, as the code's `Decimal`s): `"50"` parses to exactly
`0.50` and re-expressed as a percentage gives back `50`; with
concentration `10` and Start percent `0.80` the count is exactly `8`,
and its child with percent `0.50` gets exactly `4`, with no drift. -/
theorem claim_C5 :
    convert_to_decimal ["50"] = Except.ok [(1 : ℚ)/2]
    ∧ make_row_from_decimal [(1 : ℚ)/2] true = [(50 : ℚ)]
    ∧ convert_to_decimal ["80", "50"] = Except.ok [(4 : ℚ)/5, 1/2]
    ∧ calculate_cell_counts 10 [4/5, 1/2]
        [CalcEntry.start, CalcEntry.parentIndex 0] =
        Except.ok [some (8 : ℚ), some (4 : ℚ)] := by
  refine ⟨?_, ?_, ?_, ?_⟩
  · rw [show convert_to_decimal ["50"] = Except.ok [(50 : ℚ)/100] from rfl]
    norm_num
  · rw [show make_row_from_decimal [(1 : ℚ)/2] true = [(1 : ℚ)/2 * 100] from rfl]
    norm_num
  · rw [show convert_to_decimal ["80", "50"] =
        Except.ok [(80 : ℚ)/100, (50 : ℚ)/100] from rfl]
    norm_num
  · rw [show calculate_cell_counts 10 [4/5, 1/2]
        [CalcEntry.start, CalcEntry.parentIndex 0] =
        Except.ok [some ((10 : ℚ) * (4/5)), some ((10 : ℚ) * (4/5) * (1/2))]
        from rfl]
    norm_num

/-- Claim C6 (amended): a catalog entry that is neither Start- nor
Ignore-classified gets `ParentIndex j` where `j` is the first catalog
index of its parent path (all segments but the last); an absent parent
path makes the run fail (the uncaught `ValueError` from
`g_list.index`, the spec's `OrphanGateError`) while resolving that
entry — with the error naming the derived parent path, not the entry
itself: the one-entry catalog `["X/Y"]` fails with payload `"X"`. -/
theorem claim_C6 :
    (∀ (starts g_list igns : List String) (out : List CalcEntry)
        (i : Nat) (p : String),
      find_parent_gate starts g_list igns = Except.ok out →
      g_list[i]? = some p → p ∉ starts → p ∉ igns →
      ∃ j, list_index g_list (rsplit_parent p) = some j
        ∧ out[i]? = some (CalcEntry.parentIndex j)
        ∧ g_list[j]? = some (rsplit_parent p))
    ∧ (∀ (starts g_list igns : List String) (i : Nat) (p : String),
      g_list[i]? = some p → p ∉ starts → p ∉ igns →
      list_index g_list (rsplit_parent p) = none →
      ∃ q, find_parent_gate starts g_list igns = Except.error q)
    ∧ find_parent_gate [] ["X/Y"] [] = Except.error "X"
    ∧ rsplit_parent "X/Y" = "X" := by
  refine ⟨?_, ?_, by rfl, by rfl⟩
  · intro starts g_list igns out i p hok hp hs hi
    obtain ⟨hlen, hsteps⟩ := find_parent_aux_ok starts g_list igns g_list out hok
    obtain ⟨e, he, hg⟩ := hsteps i p hp
    rw [find_parent_one_other hs hi] at he
    cases hidx : list_index g_list (rsplit_parent p) with
    | none =>
        rw [hidx] at he
        exact Except.noConfusion he
    | some j =>
        rw [hidx] at he
        have hej : CalcEntry.parentIndex j = e := Except.ok.inj he
        refine ⟨j, rfl, ?_, list_index_get g_list (rsplit_parent p) j hidx⟩
        rw [← hej] at hg
        exact hg
  · intro starts g_list igns i p hp hs hi hidx
    have herr : find_parent_one starts g_list igns p
        = Except.error (rsplit_parent p) := by
      rw [find_parent_one_other hs hi, hidx]
    cases hres : find_parent_gate starts g_list igns with
    | ok out =>
        exact absurd hres
          (find_parent_aux_not_ok starts g_list igns g_list i p
            (rsplit_parent p) hp herr out)
    | error q => exact ⟨q, rfl⟩

/-- Claim C6 counterexample: the one-entry catalog `["X/Y"]` does make
the parent resolution fail, but the error payload is the derived
parent path `"X"` (Python's `ValueError: 'X' is not in list`) and not
the population `"X/Y"` that the claim says the error names. -/
theorem claim_C6_counterexample :
    find_parent_gate [] ["X/Y"] [] = Except.error "X"
    ∧ find_parent_gate [] ["X/Y"] [] ≠ Except.error "X/Y"
    ∧ ("X" : String) ≠ "X/Y" := by
  refine ⟨by rfl, ?_, by decide⟩
  intro h
  have hx : ("X" : String) = "X/Y" :=
    Except.error.inj
      ((show find_parent_gate [] ["X/Y"] [] = Except.error "X" from rfl).symm.trans h)
  exact absurd hx (by decide)

theorem claim_C6_witness :
    ∃ q, find_parent_gate ["Z"] ["X/Y"] [] = Except.error q :=
  claim_C6.2.1 ["Z"] ["X/Y"] [] 0 "X/Y" (by rfl) (by decide) (by decide) (by rfl)

/-- Claim C7 (code bug): rows whose first cell is `"Mean"`/`"SD"` are
indeed skipped, but the tube name is computed with
`line[0].strip(".fcs")`, which strips leading and trailing characters
from the SET `{., f, c, s}`, not the `.fcs` suffix: for first cell
`"cd3.fcs"` the code yields `"d3"` while the spec's suffix removal
yields `"cd3"`. -/
theorem claim_C7 :
    process_row ["cd3.fcs", "50", ""] = Except.ok (some ("d3", ["50"]))
    ∧ tube_name "cd3.fcs" = "d3"
    ∧ drop_fcs "cd3.fcs" = "cd3"
    ∧ tube_name "cd3.fcs" ≠ drop_fcs "cd3.fcs"
    ∧ process_row ["Mean", "50", ""] = Except.ok none
    ∧ process_row ["SD", "50", ""] = Except.ok none := by
  refine ⟨by rfl, by rfl, by rfl, ?_, by rfl, by rfl⟩
  decide

/-- Claim C8: propagation is deterministic and idempotent — a second
run of `calculate_cell_counts` over the same catalog, classification
and sample (which, in the Python, appends to the already populated
`count_list`) reproduces exactly the same count sequence. -/
theorem claim_C8 (conc : ℚ) (pl : List ℚ) (cl : List CalcEntry)
    (counts : List (Option ℚ))
    (h : calculate_cell_counts conc pl cl = Except.ok counts) :
    calculate_cell_counts_aux conc pl counts 0 cl = Except.ok (counts ++ counts) :=
  calculate_twice conc pl cl counts h

theorem claim_C8_witness :
    calculate_cell_counts_aux 10 [4/5, 1/2]
      [some ((10 : ℚ) * (4/5)), some ((10 : ℚ) * (4/5) * (1/2))] 0
      [CalcEntry.start, CalcEntry.parentIndex 0] =
      Except.ok [some ((10 : ℚ) * (4/5)), some ((10 : ℚ) * (4/5) * (1/2)),
        some ((10 : ℚ) * (4/5)), some ((10 : ℚ) * (4/5) * (1/2))] :=
  claim_C8 10 [4/5, 1/2] [CalcEntry.start, CalcEntry.parentIndex 0]
    [some (10 * (4/5)), some (10 * (4/5) * (1/2))] (by rfl)

/-- Claim C9: catalog building stores as each gate's depth the number
of `/`-separated segments of its cleaned path, and an empty header
cell (which cannot contain `" | "`) aborts the whole run with the
`sys.exit` modelled as `MalformedPathError`, before producing any
catalog. -/
theorem claim_C9 :
    (∀ (gs : List String) (res : List (String × Nat)),
      process_gates gs = Except.ok res →
      ∀ pr ∈ res, pr.2 = (splitChar '/' pr.1.toList).length)
    ∧ (∀ (gs : List String), "" ∈ gs → ∃ e, process_gates gs = Except.error e)
    ∧ clean_gate "" = Except.error PyErr.malformedPath :=
  ⟨process_gates_ok_depths, process_gates_empty_fails, by rfl⟩

theorem claim_C9_witness :
    ∃ e, process_gates [""] = Except.error e :=
  claim_C9.2.1 [""] (by simp)

/-- Claim C10: a position whose `ParentIndex` refers to an
Ignore-classified position makes propagation fail with an error (the
blank parent count cannot be multiplied) — it never returns counts;
and in any successful run a numeric count arises only at positions
whose parent chain reaches a `Start` gate through non-ignored
positions. -/
theorem claim_C10 :
    (∀ (conc : ℚ) (pl : List ℚ) (cl : List CalcEntry) (i j : Nat),
      cl[i]? = some (CalcEntry.parentIndex j) →
      cl[j]? = some CalcEntry.ignore →
      ∃ err, calculate_cell_counts conc pl cl = Except.error err)
    ∧ (∀ (conc : ℚ) (pl : List ℚ) (cl : List CalcEntry)
        (counts : List (Option ℚ)) (i : Nat) (c : ℚ),
      calculate_cell_counts conc pl cl = Except.ok counts →
      counts[i]? = some (some c) → reachesStart cl i = true) :=
  ⟨calculate_ignore_parent_error,
   fun conc pl cl counts i c h hc =>
     calculate_ok_reaches conc pl cl counts h i c hc⟩

theorem claim_C10_witness :
    ∃ err, calculate_cell_counts 1 [1, 1]
      [CalcEntry.ignore, CalcEntry.parentIndex 0] = Except.error err :=
  claim_C10.1 1 [1, 1] [CalcEntry.ignore, CalcEntry.parentIndex 0] 1 0
    (by rfl) (by rfl)
